import Mathlib

/-!
Shallow embedding of `src/ui/shared/monaco/CodeEditor.tsx` from
ScreenTechnicals/blockscout-frontend.

The component keeps two pieces of React state relevant to the tab
machine (lines 42-43):

  const [ index, setIndex ] = React.useState(0);
  const [ tabs, setTabs ] = React.useState([ data[index].file_path ]);

and mutates them only through the callbacks `handleSelectFile`
(lines 78-87), `handleTabSelect` (lines 89-94), `handleTabClose`
(lines 96-112) and `handleClick` (lines 114-130).  We embed the state
as a structure over `Int` (JavaScript `findIndex` returns `-1` on a
miss, and the component stores that result directly) and a
`List String` of tab paths, and each callback as a pure state
transformer.  JavaScript array reads out of range yield `undefined`;
a subsequent property access would throw, so such reads are totalized
with `Option`/default values and the theorems carry the range
hypotheses under which the source code cannot throw.
-/

namespace CodeEditor

/-- A verified contract source file, `File` from `./types`:
`{ file_path: string, source_code: string }`. -/
structure File where
  file_path : String
  source_code : String
deriving DecidableEq, Repr, Inhabited

/-- The tab-machine component state: the active file index (`index`,
a JavaScript number that can be `-1` after a failed lookup) and the
ordered list of open tab paths (`tabs`). -/
structure CEState where
  index : Int
  tabs : List String
deriving DecidableEq, Repr

/-- JavaScript `Array.prototype.findIndex`: index of the first
element satisfying `p`, or `-1` when there is none. -/
def jsFindIndex (p : α → Bool) (l : List α) : Int :=
  match l.findIdx? p with
  | some n => (n : Int)
  | none => -1

/-- JavaScript indexing `l[i]`: `none` models `undefined` (negative
or out-of-range index). -/
def jsGet (l : List α) (i : Int) : Option α :=
  if i < 0 then none else l.get? i.toNat

/-- Read of `data[i].file_path` as an `Option`: `none` when `data[i]` is
`undefined` (in which case the source code would throw). -/
def dataPathAt (data : List File) (i : Int) : Option String :=
  (jsGet data i).map File.file_path

/-- Read of `data[i].file_path` totalized with a default; only used where the
theorems assume `i` in range, so the default is never observed there. -/
def dataPathAtD (data : List File) (i : Int) : String :=
  ((jsGet data i).getD default).file_path

/-- Initial state, lines 42-43: `index = 0`,
`tabs = [ data[index].file_path ]`. -/
def initState (data : List File) : CEState :=
  { index := 0, tabs := [ dataPathAtD data 0 ] }

/-- Embedding of `handleSelectFile` (lines 78-87), state part:
`setIndex(index)` and
`setTabs(prev => prev.some(item => item === data[index].file_path)
? prev : [ ...prev, data[index].file_path ])`.
The `lineNumber` argument only drives effects, modelled separately in
`selectFileEffects`. -/
def handleSelectFile (data : List File) (i : Int) (s : CEState) : CEState :=
  { index := i
  , tabs :=
      if s.tabs.any (fun item => item = dataPathAtD data i) then s.tabs
      else s.tabs ++ [ dataPathAtD data i ] }

/-- Embedding of `handleTabSelect` (lines 89-94): look the path up in `data`; set
the index only when found (`index > -1`). -/
def handleTabSelect (data : List File) (path : String) (s : CEState) : CEState :=
  let index := jsFindIndex (fun item => item.file_path = path) data
  if index > -1 then { s with index := index } else s

/-- Embedding of `handleTabClose` (lines 96-112).  When more than one tab is open:
find the closed path's position, and if the closed tab is the active
one, look up in `data` the file whose path sits at
`prev[Math.max(0, tabIndex - 1)]` of the pre-removal tab list and make
it active (`findIndex` yields `-1` when the lookup misses); finally
drop every occurrence of `path` from the tabs.  With a single tab the
whole update is a no-op. -/
def handleTabClose (data : List File) (path : String) (s : CEState) : CEState :=
  if s.tabs.length > 1 then
    let tabIndex := jsFindIndex (fun item => item = path) s.tabs
    let isActive := dataPathAt data s.index = some path
    let newIndex :=
      if isActive then
        let replPath := jsGet s.tabs (max 0 (tabIndex - 1))
        jsFindIndex (fun item => some item.file_path = replPath) data
      else s.index
    { index := newIndex, tabs := s.tabs.filter (fun item => item ≠ path) }
  else s

/-- Body of `handleClick` after the interaction-mode gate
(lines 119-129): if the click target is an import link, resolve the
clicked text against the active file's path, look the resolved path up
in `data`, and select that file when found.  The resolver
`getFullPathOfImportedFile` lives outside this source slice, so it is
a parameter. -/
def handleClickInner (data : List File) (resolve : String → String → String)
    (isImportLink : Bool) (innerText : String) (s : CEState) : CEState :=
  if isImportLink then
    let fullPath := resolve (dataPathAtD data s.index) innerText
    let fileIndex := jsFindIndex (fun file => file.file_path = fullPath) data
    if fileIndex > -1 then handleSelectFile data fileIndex s else s
  else s

/-- Embedding of `handleClick` (lines 114-130): the early return
`if (!isMetaPressed && !isMobile) return;` gates the body. -/
def handleClick (data : List File) (resolve : String → String → String)
    (isMetaPressed isMobile isImportLink : Bool) (innerText : String)
    (s : CEState) : CEState :=
  if !isMetaPressed && !isMobile then s
  else handleClickInner data resolve isImportLink innerText s

/-- A JavaScript number as far as `handleSelectFile` inspects one: a
finite value, `NaN`, or an infinity.  Only identity with `NaN`
(`Object.is`) and definedness are tested by the source, so the finite
payload is carried as an integer. -/
inductive JSNumber where
  | finite (v : Int)
  | nan
  | posInf
  | negInf
deriving DecidableEq, Repr

/-- Test `Object.is(x, NaN)`. -/
def jsObjectIsNaN : JSNumber → Bool
  | .nan => true
  | _ => false

/-- A `Number.isFinite`-style classification, used to state the spec's
"finite number" wording. -/
def jsIsFinite : JSNumber → Bool
  | .finite _ => true
  | _ => false

/-- Effects of one `handleSelectFile` call (lines 81-86). -/
structure SelectFileEffects where
  scrollScheduled : Bool
  focusRequested : Bool
deriving DecidableEq, Repr

/-- Embedding of `handleSelectFile`, effect part: the deferred
`revealLineInCenter` is scheduled exactly when
`lineNumber !== undefined && !Object.is(lineNumber, NaN)`, and
`editorRef.current?.focus()` runs unconditionally. -/
def selectFileEffects (lineNumber : Option JSNumber) : SelectFileEffects :=
  { scrollScheduled :=
      match lineNumber with
      | none => false
      | some x => !(jsObjectIsNaN x)
  , focusRequested := true }

/-- One user-driven operation on the tab machine. -/
inductive Op where
  | selectFile (i : Nat) (lineNumber : Option JSNumber)
  | selectTab (path : String)
  | closeTab (path : String)
deriving DecidableEq, Repr

/-- Apply one operation to the state. -/
def applyOp (data : List File) : Op → CEState → CEState
  | .selectFile i _, s => handleSelectFile data (i : Int) s
  | .selectTab path, s => handleTabSelect data path s
  | .closeTab path, s => handleTabClose data path s

/-- The sidebar, tabs bar and import-link click all invoke
`handleSelectFile` with an index of an existing file (the sidebar picks
it from `data`, the other two guard on `findIndex > -1`), so a valid
operation's `selectFile` index is in range. -/
def validOp (data : List File) : Op → Prop
  | .selectFile i _ => i < data.length
  | .selectTab _ => True
  | .closeTab _ => True

/-- Run a list of operations from the mount state. -/
def run (data : List File) (ops : List Op) : CEState :=
  ops.foldl (fun s op => applyOp data op s) (initState data)


/-! ### Basic facts about the JavaScript-style helpers -/

theorem jsFindIndex_eq_neg_one {p : α → Bool} {l : List α}
    (h : ∀ x ∈ l, p x = false) : jsFindIndex p l = -1 := by
  unfold jsFindIndex
  rw [List.findIdx?_eq_none_iff.mpr h]

theorem jsFindIndex_cases (p : α → Bool) (l : List α) :
    jsFindIndex p l = -1 ∨
      ∃ n : ℕ, jsFindIndex p l = (n : Int) ∧
        ∃ hn : n < l.length, p l[n] = true := by
  unfold jsFindIndex
  cases h : l.findIdx? p with
  | none => exact Or.inl rfl
  | some n =>
      obtain ⟨hn, hpn, -⟩ := List.findIdx?_eq_some_iff_getElem.mp h
      exact Or.inr ⟨n, rfl, hn, hpn⟩

theorem jsFindIndex_spec_of_mem {p : α → Bool} {l : List α} {x : α}
    (hx : x ∈ l) (hp : p x = true) :
    ∃ n : ℕ, jsFindIndex p l = (n : Int) ∧
      ∃ hn : n < l.length, p l[n] = true := by
  cases h : l.findIdx? p with
  | none =>
      have hfalse := List.findIdx?_eq_none_iff.mp h x hx
      rw [hp] at hfalse
      simp at hfalse
  | some n =>
      obtain ⟨hn, hpn, -⟩ := List.findIdx?_eq_some_iff_getElem.mp h
      refine ⟨n, ?_, hn, hpn⟩
      unfold jsFindIndex
      rw [h]

theorem jsFindIndex_lt_length (p : α → Bool) (l : List α) :
    jsFindIndex p l < (l.length : Int) := by
  rcases jsFindIndex_cases p l with h | ⟨n, hn, hlt, -⟩
  · rw [h]; omega
  · rw [hn]; exact_mod_cast hlt

theorem jsFindIndex_ge_neg_one (p : α → Bool) (l : List α) :
    -1 ≤ jsFindIndex p l := by
  rcases jsFindIndex_cases p l with h | ⟨n, hn, -, -⟩
  · rw [h]
  · rw [hn]; omega

theorem jsFindIndex_head {l : List α} {a : α} {p : α → Bool}
    (h0 : l.get? 0 = some a) (hp : p a = true) :
    jsFindIndex p l = 0 := by
  obtain ⟨hlen, hget⟩ := List.get?_eq_some.mp h0
  have hfi : l.findIdx? p = some 0 := by
    refine List.findIdx?_eq_some_iff_getElem.mpr ⟨hlen, ?_, ?_⟩
    · have hea : l[0] = a := by simpa [List.get_eq_getElem] using hget
      rw [hea]; exact hp
    · intro j hj
      omega
  unfold jsFindIndex
  rw [hfi]
  rfl

theorem jsFindIndex_eq_of_nodup [DecidableEq α] {l : List α} {a : α} {n : ℕ}
    (hnd : l.Nodup) (hn : l.get? n = some a) :
    jsFindIndex (fun item => item = a) l = (n : Int) := by
  obtain ⟨hlen, hget⟩ := List.get?_eq_some.mp hn
  have hea : l[n] = a := by simpa [List.get_eq_getElem] using hget
  have hfi : l.findIdx? (fun item => item = a) = some n := by
    refine List.findIdx?_eq_some_iff_getElem.mpr ⟨hlen, ?_, ?_⟩
    · simp [hea]
    · intro j hj
      simp only [decide_eq_true_eq]
      intro hja
      have hjl : j < l.length := lt_trans hj hlen
      have heq : l[j] = l[n] := by rw [hja, hea]
      have := (List.Nodup.getElem_inj_iff hnd).mp heq
      omega
  unfold jsFindIndex
  rw [hfi]

theorem jsGet_coe (l : List α) (n : ℕ) : jsGet l (n : Int) = l.get? n := by
  unfold jsGet
  simp

theorem jsGet_mem {l : List α} {i : Int} {a : α} (h : jsGet l i = some a) :
    a ∈ l := by
  unfold jsGet at h
  split at h
  · exact absurd h (by simp)
  · exact List.get?_mem h

theorem jsGet_eq_get {l : List α} {i : Int} (h0 : 0 ≤ i)
    (hl : i < (l.length : Int)) :
    ∃ hn : i.toNat < l.length, jsGet l i = some (l.get ⟨i.toNat, hn⟩) := by
  have hn : i.toNat < l.length := by omega
  refine ⟨hn, ?_⟩
  unfold jsGet
  rw [if_neg (by omega)]
  exact List.get?_eq_get hn

theorem dataPathAtD_spec {data : List File} {i : Int} (h0 : 0 ≤ i)
    (hl : i < (data.length : Int)) :
    ∃ f ∈ data, f.file_path = dataPathAtD data i ∧
      dataPathAt data i = some (dataPathAtD data i) := by
  obtain ⟨hn, hg⟩ := jsGet_eq_get h0 hl
  refine ⟨data.get ⟨i.toNat, hn⟩, List.get_mem _ _ _, ?_, ?_⟩
  · unfold dataPathAtD
    rw [hg]
    rfl
  · unfold dataPathAt dataPathAtD
    rw [hg]
    rfl

/-! ### The reachable-state invariant -/

/-- Invariant maintained by the tab machine: the tab list is nonempty
and duplicate-free, every open tab path is the path of some file of
`data`, and the active index addresses a file of `data`. -/
def Inv (data : List File) (s : CEState) : Prop :=
  s.tabs ≠ [] ∧ s.tabs.Nodup ∧
    (∀ q ∈ s.tabs, ∃ f ∈ data, f.file_path = q) ∧
    0 ≤ s.index ∧ s.index < (data.length : Int)

theorem inv_initState (data : List File) (hdata : data ≠ []) :
    Inv data (initState data) := by
  have hlen : 0 < data.length := List.length_pos.mpr hdata
  have hlen0 : (0 : Int) < (data.length : Int) := by exact_mod_cast hlen
  obtain ⟨f, hf, hfp, -⟩ := dataPathAtD_spec le_rfl hlen0
  refine ⟨by simp [initState], by simp [initState], ?_, by simp [initState], ?_⟩
  · intro q hq
    simp only [initState, List.mem_singleton] at hq
    subst hq
    exact ⟨f, hf, hfp⟩
  · simpa [initState] using hlen

theorem inv_handleSelectFile {data : List File} {s : CEState} {i : ℕ}
    (hs : Inv data s) (hi : i < data.length) :
    Inv data (handleSelectFile data (i : Int) s) := by
  obtain ⟨hne, hnd, hsub, h0, hlt⟩ := hs
  have hilt : (i : Int) < (data.length : Int) := by exact_mod_cast hi
  obtain ⟨f, hf, hfp, -⟩ := dataPathAtD_spec (by omega) hilt
  unfold handleSelectFile
  cases hmem : s.tabs.any (fun item => item = dataPathAtD data (i : Int)) with
  | true =>
      rw [if_pos rfl]
      refine ⟨hne, hnd, hsub, ?_, ?_⟩
      · show (0 : Int) ≤ (i : Int)
        omega
      · show (i : Int) < (data.length : Int)
        exact_mod_cast hi
  | false =>
      rw [if_neg Bool.false_ne_true]
      have hnotmem : dataPathAtD data (i : Int) ∉ s.tabs := by
        intro hmm
        have hany : s.tabs.any (fun item => item = dataPathAtD data (i : Int))
            = true := List.any_eq_true.mpr ⟨_, hmm, decide_eq_true rfl⟩
        rw [hmem] at hany
        simp at hany
      refine ⟨by simp, ?_, ?_, ?_, ?_⟩
      · show (s.tabs ++ [dataPathAtD data (i : Int)]).Nodup
        exact List.nodup_append.mpr ⟨hnd, List.nodup_singleton _,
          List.disjoint_singleton.mpr hnotmem⟩
      · intro q hq
        rcases List.mem_append.mp hq with hq | hq
        · exact hsub q hq
        · rw [List.mem_singleton] at hq
          subst hq
          exact ⟨f, hf, hfp⟩
      · show (0 : Int) ≤ (i : Int)
        omega
      · show (i : Int) < (data.length : Int)
        exact_mod_cast hi

theorem inv_handleTabSelect {data : List File} {s : CEState} (path : String)
    (hs : Inv data s) : Inv data (handleTabSelect data path s) := by
  obtain ⟨hne, hnd, hsub, h0, hlt⟩ := hs
  simp only [handleTabSelect]
  split
  · rename_i hgt
    refine ⟨hne, hnd, hsub, ?_, jsFindIndex_lt_length _ _⟩
    show (0 : Int) ≤ jsFindIndex (fun item => item.file_path = path) data
    omega
  · exact ⟨hne, hnd, hsub, h0, hlt⟩

theorem replacement_found {data : List File} {tabs : List String} {ti : Int}
    (hne : tabs ≠ []) (hsub : ∀ q ∈ tabs, ∃ f ∈ data, f.file_path = q)
    (hti : ti < (tabs.length : Int)) :
    ∃ n : ℕ,
      jsFindIndex
        (fun item => some item.file_path = jsGet tabs (max 0 (ti - 1))) data
          = (n : Int) ∧
      ∃ hn : n < data.length,
        some (data.get ⟨n, hn⟩).file_path = jsGet tabs (max 0 (ti - 1)) := by
  have hlen : 0 < tabs.length := List.length_pos.mpr hne
  have h0 : (0 : Int) ≤ max 0 (ti - 1) := le_max_left _ _
  have hm : max 0 (ti - 1) < (tabs.length : Int) := by omega
  obtain ⟨hn', hg⟩ := jsGet_eq_get h0 hm
  obtain ⟨f, hf, hfp⟩ := hsub _ (List.get_mem tabs _ hn')
  have hpred :
      (fun item => decide (some item.file_path = jsGet tabs (max 0 (ti - 1)))) f
        = true := by
    simp only [decide_eq_true_eq]
    rw [hg, hfp]
  obtain ⟨n, hfind, hn, hpn⟩ := jsFindIndex_spec_of_mem
    (p := fun item => decide (some item.file_path = jsGet tabs (max 0 (ti - 1))))
    hf hpred
  refine ⟨n, hfind, hn, ?_⟩
  have := of_decide_eq_true hpn
  simpa [List.get_eq_getElem] using this

/-! ### Characterizations of handleTabClose -/

theorem handleTabClose_small {data : List File} {path : String} {s : CEState}
    (hlen : ¬ 1 < s.tabs.length) : handleTabClose data path s = s := by
  simp only [handleTabClose]
  rw [if_neg hlen]

theorem handleTabClose_not_active {data : List File} {path : String}
    {s : CEState} (hlen : 1 < s.tabs.length)
    (hact : ¬ dataPathAt data s.index = some path) :
    handleTabClose data path s =
      ⟨s.index, s.tabs.filter (fun item => item ≠ path)⟩ := by
  simp only [handleTabClose]
  rw [if_pos hlen, if_neg hact]

theorem handleTabClose_active {data : List File} {path : String}
    {s : CEState} (hlen : 1 < s.tabs.length)
    (hact : dataPathAt data s.index = some path) :
    handleTabClose data path s =
      ⟨jsFindIndex
          (fun item => some item.file_path =
            jsGet s.tabs
              (max 0 (jsFindIndex (fun item => item = path) s.tabs - 1))) data,
        s.tabs.filter (fun item => item ≠ path)⟩ := by
  simp only [handleTabClose]
  rw [if_pos hlen, if_pos hact]

theorem not_mem_of_any_eq_false {l : List String} {a : String}
    (h : l.any (fun item => item = a) = false) : a ∉ l := by
  intro hmm
  have hany : l.any (fun item => item = a) = true :=
    List.any_eq_true.mpr ⟨_, hmm, decide_eq_true rfl⟩
  rw [h] at hany
  simp at hany

theorem tabs_filter_ne_nil {tabs : List String} {path : String}
    (hnd : tabs.Nodup) (hlen : 1 < tabs.length) :
    tabs.filter (fun item => item ≠ path) ≠ [] := by
  intro hnil
  have hall : ∀ x ∈ tabs, x = path := by
    intro x hx
    by_contra hne
    have hmem : x ∈ tabs.filter (fun item => item ≠ path) :=
      List.mem_filter.mpr ⟨hx, by simpa using hne⟩
    rw [hnil] at hmem
    simp at hmem
  have h0 : tabs.get ⟨0, by omega⟩ = path := hall _ (List.get_mem _ _ _)
  have h1 : tabs.get ⟨1, hlen⟩ = path := hall _ (List.get_mem _ _ _)
  have h01 : (⟨0, by omega⟩ : Fin tabs.length) = ⟨1, hlen⟩ :=
    (List.Nodup.get_inj_iff hnd).mp (by rw [h0, h1])
  simp at h01

theorem inv_handleTabClose {data : List File} {s : CEState} (path : String)
    (hs : Inv data s) : Inv data (handleTabClose data path s) := by
  obtain ⟨hne, hnd, hsub, h0, hlt⟩ := hs
  by_cases hlen : 1 < s.tabs.length
  · by_cases hact : dataPathAt data s.index = some path
    · rw [handleTabClose_active hlen hact]
      obtain ⟨n, hfind, hn, -⟩ := replacement_found hne hsub
        (jsFindIndex_lt_length (fun item => item = path) s.tabs)
      refine ⟨tabs_filter_ne_nil hnd hlen, List.Nodup.filter _ hnd,
        fun q hq => hsub q (List.mem_of_mem_filter hq), ?_, ?_⟩
      · show (0 : Int) ≤ jsFindIndex
          (fun item => some item.file_path =
            jsGet s.tabs
              (max 0 (jsFindIndex (fun item => item = path) s.tabs - 1))) data
        rw [hfind]
        omega
      · exact jsFindIndex_lt_length _ _
    · rw [handleTabClose_not_active hlen hact]
      exact ⟨tabs_filter_ne_nil hnd hlen, List.Nodup.filter _ hnd,
        fun q hq => hsub q (List.mem_of_mem_filter hq), h0, hlt⟩
  · rw [handleTabClose_small hlen]
    exact ⟨hne, hnd, hsub, h0, hlt⟩

theorem inv_applyOp {data : List File} {s : CEState} {op : Op}
    (hs : Inv data s) (hop : validOp data op) :
    Inv data (applyOp data op s) := by
  cases op with
  | selectFile i ln => exact inv_handleSelectFile hs hop
  | selectTab path => exact inv_handleTabSelect path hs
  | closeTab path => exact inv_handleTabClose path hs

theorem inv_foldl {data : List File} (ops : List Op) :
    ∀ s : CEState, Inv data s → (∀ op ∈ ops, validOp data op) →
      Inv data (ops.foldl (fun s op => applyOp data op s) s) := by
  induction ops with
  | nil => intro s hs _; exact hs
  | cons op rest ih =>
      intro s hs hv
      exact ih _ (inv_applyOp hs (hv op (List.mem_cons_self _ _)))
        (fun o ho => hv o (List.mem_cons_of_mem _ ho))

theorem inv_run (data : List File) (hdata : data ≠ []) (ops : List Op)
    (hvalid : ∀ op ∈ ops, validOp data op) :
    Inv data (run data ops) :=
  inv_foldl ops _ (inv_initState data hdata) hvalid

/-! ### Order preservation -/

/-- Two tab lists agree on the relative order of their common paths:
restricting either one to the members of the other yields the same
sequence. -/
def orderPreserved (old new : List String) : Prop :=
  old.filter (fun q => q ∈ new) = new.filter (fun q => q ∈ old)

theorem orderPreserved_refl (l : List String) : orderPreserved l l := rfl

theorem orderPreserved_append_not_mem {l : List String} {p : String}
    (hp : p ∉ l) : orderPreserved l (l ++ [p]) := by
  unfold orderPreserved
  rw [List.filter_append]
  have h1 : l.filter (fun q => q ∈ l ++ [p]) = l :=
    List.filter_eq_self.mpr (fun a ha => by simp [List.mem_append, ha])
  have h2 : l.filter (fun q => q ∈ l) = l :=
    List.filter_eq_self.mpr (fun a ha => by simp [ha])
  have h3 : List.filter (fun q => q ∈ l) [p] = [] := by
    simp [hp]
  rw [h1, h2, h3, List.append_nil]

theorem orderPreserved_filter (l : List String) (pr : String → Bool) :
    orderPreserved l (l.filter pr) := by
  unfold orderPreserved
  have h1 : l.filter (fun q => q ∈ l.filter pr) = l.filter pr := by
    apply List.filter_congr
    intro x hx
    by_cases hpx : pr x = true
    · simp [List.mem_filter, hx, hpx]
    · simp [List.mem_filter, hpx]
  have h2 : (l.filter pr).filter (fun q => q ∈ l) = l.filter pr :=
    List.filter_eq_self.mpr
      (fun a ha => by simp [List.mem_of_mem_filter ha])
  rw [h1, h2]

theorem orderPreserved_applyOp (data : List File) (op : Op) (s : CEState) :
    orderPreserved s.tabs (applyOp data op s).tabs := by
  cases op with
  | selectFile i ln =>
      show orderPreserved s.tabs (handleSelectFile data (i : Int) s).tabs
      unfold handleSelectFile
      cases hmem : s.tabs.any (fun item => item = dataPathAtD data (i : Int)) with
      | true =>
          rw [if_pos rfl]
          exact orderPreserved_refl _
      | false =>
          rw [if_neg Bool.false_ne_true]
          exact orderPreserved_append_not_mem (not_mem_of_any_eq_false hmem)
  | selectTab path =>
      show orderPreserved s.tabs (handleTabSelect data path s).tabs
      simp only [handleTabSelect]
      split
      · exact orderPreserved_refl _
      · exact orderPreserved_refl _
  | closeTab path =>
      show orderPreserved s.tabs (handleTabClose data path s).tabs
      by_cases hlen : 1 < s.tabs.length
      · by_cases hact : dataPathAt data s.index = some path
        · rw [handleTabClose_active hlen hact]
          exact orderPreserved_filter _ _
        · rw [handleTabClose_not_active hlen hact]
          exact orderPreserved_filter _ _
      · rw [handleTabClose_small hlen]
        exact orderPreserved_refl _

/-! ### Characterizations of handleSelectFile -/

theorem handleSelectFile_of_mem {data : List File} {i : Int} {s : CEState}
    (h : dataPathAtD data i ∈ s.tabs) :
    handleSelectFile data i s = ⟨i, s.tabs⟩ := by
  unfold handleSelectFile
  rw [if_pos (List.any_eq_true.mpr ⟨_, h, decide_eq_true rfl⟩)]

theorem handleSelectFile_of_not_mem {data : List File} {i : Int} {s : CEState}
    (h : dataPathAtD data i ∉ s.tabs) :
    handleSelectFile data i s = ⟨i, s.tabs ++ [dataPathAtD data i]⟩ := by
  unfold handleSelectFile
  rw [if_neg]
  intro hany
  obtain ⟨x, hx, hpx⟩ := List.any_eq_true.mp hany
  exact h (of_decide_eq_true hpx ▸ hx)

/-! ### Example fixtures used by the concrete witness theorems -/

/-- Example files for concrete witnesses. -/
def exA : File := ⟨"A.sol", "contract A {}"⟩

/-- Example file `B.sol`. -/
def exB : File := ⟨"B.sol", "contract B {}"⟩

/-- Example file `C.sol`. -/
def exC : File := ⟨"C.sol", "contract C {}"⟩

/-- An example three-file collection. -/
def exData : List File := [exA, exB, exC]

/-- An example operation sequence: open `B.sol`, then close `A.sol`. -/
def exOps : List Op := [Op.selectFile 1 none, Op.closeTab "A.sol"]

/-! ### The claims -/

/-- C3: for every state and valid file index `i`, `selectFile(i)` sets
the active index to `i`; it leaves the tab list unchanged when `i`'s
path is already open and otherwise appends exactly that one path at
the end (so existing tabs are never removed or reordered), and calling
it again with the same `i` yields the same state (no duplicate tab). -/
theorem selectFile_appends_once_and_idempotent (data : List File) (i : ℕ)
    (s : CEState) (hi : i < data.length) :
    (handleSelectFile data (i : Int) s).index = (i : Int) ∧
    (dataPathAtD data (i : Int) ∈ s.tabs →
      (handleSelectFile data (i : Int) s).tabs = s.tabs) ∧
    (dataPathAtD data (i : Int) ∉ s.tabs →
      (handleSelectFile data (i : Int) s).tabs
        = s.tabs ++ [dataPathAtD data (i : Int)]) ∧
    handleSelectFile data (i : Int) (handleSelectFile data (i : Int) s)
      = handleSelectFile data (i : Int) s := by
  refine ⟨rfl, ?_, ?_, ?_⟩
  · intro hin
    rw [handleSelectFile_of_mem hin]
  · intro hnot
    rw [handleSelectFile_of_not_mem hnot]
  · by_cases hmem : dataPathAtD data (i : Int) ∈ s.tabs
    · rw [handleSelectFile_of_mem hmem]
      exact handleSelectFile_of_mem hmem
    · rw [handleSelectFile_of_not_mem hmem]
      exact handleSelectFile_of_mem
        (List.mem_append.mpr (Or.inr (List.mem_singleton.mpr rfl)))

/-- C3 witness: instantiated at the example collection, index 1 and
the mount state. -/
theorem selectFile_appends_once_and_idempotent_witness :
    (handleSelectFile exData (1 : ℕ) (initState exData)).index = (1 : ℕ) ∧
    (dataPathAtD exData (1 : ℕ) ∈ (initState exData).tabs →
      (handleSelectFile exData (1 : ℕ) (initState exData)).tabs
        = (initState exData).tabs) ∧
    (dataPathAtD exData (1 : ℕ) ∉ (initState exData).tabs →
      (handleSelectFile exData (1 : ℕ) (initState exData)).tabs
        = (initState exData).tabs ++ [dataPathAtD exData (1 : ℕ)]) ∧
    handleSelectFile exData (1 : ℕ)
        (handleSelectFile exData (1 : ℕ) (initState exData))
      = handleSelectFile exData (1 : ℕ) (initState exData) :=
  selectFile_appends_once_and_idempotent exData 1 (initState exData)
    (by decide)

/-- C4: when exactly one tab is open, `closeTab(path)` leaves the
whole state unchanged: the silent no-op branch of `handleTabClose`
returns the previous tab list and never touches the index. -/
theorem closeTab_single_tab_noop (data : List File) (path : String)
    (s : CEState) (h : s.tabs.length = 1) :
    handleTabClose data path s = s :=
  handleTabClose_small (by omega)

/-- C4 witness: closing the sole open tab (or any other path) changes
nothing. -/
theorem closeTab_single_tab_noop_witness :
    handleTabClose exData "A.sol" (initState exData) = initState exData :=
  closeTab_single_tab_noop exData "A.sol" (initState exData) (by decide)

/-- C5: for every non-empty file collection, the mount state has the
singleton tab list `[data[0].file_path]` and active index 0. -/
theorem initState_first_file (data : List File) (h : data ≠ []) :
    (initState data).tabs = [(data.head h).file_path] ∧
    (initState data).index = 0 := by
  refine ⟨?_, rfl⟩
  have hlen : 0 < data.length := List.length_pos.mpr h
  show [dataPathAtD data 0] = [(data.head h).file_path]
  unfold dataPathAtD
  have h00 : ((0 : ℕ) : Int) = (0 : Int) := rfl
  rw [← h00, jsGet_coe, List.get?_eq_get hlen]
  rw [List.get_mk_zero hlen]
  rfl

/-- C5 witness: the example collection mounts with tab `A.sol` and
index 0. -/
theorem initState_first_file_witness :
    (initState exData).tabs = [(exData.head (by decide)).file_path] ∧
    (initState exData).index = 0 :=
  initState_first_file exData (by decide)

theorem dataPathAt_coe {data : List File} {n : ℕ} (hn : n < data.length) :
    dataPathAt data (n : Int) = some (data.get ⟨n, hn⟩).file_path := by
  unfold dataPathAt
  rw [jsGet_coe, List.get?_eq_get hn]
  rfl

/-- C1 (counterexample): with the two files `A.sol`, `B.sol` open as
tabs (a state reached by opening `B.sol` and re-activating `A.sol`)
and the active tab `A.sol` at position 0, closing `A.sol` does not
activate the file whose path was at position 1 of the pre-removal
sequence (`B.sol`): the code reads `prev[max(0, 0-1)] = prev[0]`, the
closed path itself, so `A.sol` stays active. -/
theorem closeTab_first_position_counterexample :
    run exData [Op.selectFile 1 none, Op.selectTab "A.sol"]
        = ⟨0, ["A.sol", "B.sol"]⟩ ∧
    1 < (CEState.mk 0 ["A.sol", "B.sol"]).tabs.length ∧
    (CEState.mk 0 ["A.sol", "B.sol"]).tabs.get? 0 = some "A.sol" ∧
    dataPathAt exData (CEState.mk 0 ["A.sol", "B.sol"]).index
      = some "A.sol" ∧
    dataPathAt exData
        (handleTabClose exData "A.sol" (CEState.mk 0 ["A.sol", "B.sol"])).index
      ≠ (CEState.mk 0 ["A.sol", "B.sol"]).tabs.get? 1 := by
  refine ⟨?_, ?_, ?_, ?_, ?_⟩ <;> decide

/-- C1 (amended): for every tab sequence of length n > 1 whose tab at
position 0 is the active one, closeTab on that path removes the path
from the tab sequence, and the new active file is the file whose path
was at position 0 of the pre-removal sequence — the closed file
itself, which therefore stays active while its tab disappears. -/
theorem closeTab_first_position_amended {data : List File} {s : CEState}
    {path : String}
    (hlen : 1 < s.tabs.length)
    (h0 : s.tabs.get? 0 = some path)
    (hact : dataPathAt data s.index = some path)
    (hmem : ∃ f ∈ data, f.file_path = path) :
    dataPathAt data (handleTabClose data path s).index = some path ∧
    (handleTabClose data path s).tabs =
      s.tabs.filter (fun item => item ≠ path) := by
  rw [handleTabClose_active hlen hact]
  refine ⟨?_, rfl⟩
  have hti : jsFindIndex (fun item => item = path) s.tabs = 0 :=
    jsFindIndex_head h0 (decide_eq_true rfl)
  rw [hti]
  have hmax : max (0 : Int) (0 - 1) = 0 := by norm_num
  rw [hmax]
  have hg : jsGet s.tabs (0 : Int) = some path := by
    have h00 : ((0 : ℕ) : Int) = (0 : Int) := rfl
    rw [← h00, jsGet_coe]
    exact h0
  rw [hg]
  obtain ⟨f, hf, hfp⟩ := hmem
  have hpred : (fun item => decide (some item.file_path = some path)) f
      = true := by
    simp [hfp]
  obtain ⟨n, hfind, hn, hpn⟩ := jsFindIndex_spec_of_mem
    (p := fun item => decide (some item.file_path = some path)) hf hpred
  rw [hfind, dataPathAt_coe hn]
  have hsome := of_decide_eq_true hpn
  simpa [List.get_eq_getElem] using hsome

/-- C1 (amended) witness: instantiated at the counterexample state;
closing the active first tab keeps `A.sol` active and leaves only the
`B.sol` tab. -/
theorem closeTab_first_position_amended_witness :
    dataPathAt exData
        (handleTabClose exData "A.sol" (CEState.mk 0 ["A.sol", "B.sol"])).index
      = some "A.sol" ∧
    (handleTabClose exData "A.sol" (CEState.mk 0 ["A.sol", "B.sol"])).tabs =
      (CEState.mk 0 ["A.sol", "B.sol"]).tabs.filter
        (fun item => item ≠ "A.sol") :=
  closeTab_first_position_amended (by decide) (by decide) (by decide)
    ⟨exA, by decide, by decide⟩

/-- C2: for every duplicate-free tab sequence whose paths all belong
to the file collection, closing the active tab sitting at position
p > 0 removes that path from the tab sequence and activates the file
whose path was at position p-1 of the pre-removal sequence. -/
theorem closeTab_active_mid_position {data : List File} {s : CEState}
    {path : String} {p : ℕ}
    (hnd : s.tabs.Nodup)
    (hsub : ∀ q ∈ s.tabs, ∃ f ∈ data, f.file_path = q)
    (hp0 : 0 < p)
    (hp : s.tabs.get? p = some path)
    (hact : dataPathAt data s.index = some path) :
    dataPathAt data (handleTabClose data path s).index
        = s.tabs.get? (p - 1) ∧
    path ∉ (handleTabClose data path s).tabs ∧
    (handleTabClose data path s).tabs =
      s.tabs.filter (fun item => item ≠ path) := by
  have hplen : p < s.tabs.length := (List.get?_eq_some.mp hp).1
  have hlen : 1 < s.tabs.length := by omega
  rw [handleTabClose_active hlen hact]
  have hti : jsFindIndex (fun item => item = path) s.tabs = (p : Int) :=
    jsFindIndex_eq_of_nodup hnd hp
  refine ⟨?_, ?_, rfl⟩
  · rw [hti]
    have hmax : max (0 : Int) ((p : Int) - 1) = ((p - 1 : ℕ) : Int) := by
      omega
    rw [hmax, jsGet_coe]
    have hp1len : p - 1 < s.tabs.length := by omega
    obtain ⟨f, hf, hfp⟩ := hsub _ (List.get_mem s.tabs _ hp1len)
    have hq : s.tabs.get? (p - 1) = some (s.tabs.get ⟨p - 1, hp1len⟩) :=
      List.get?_eq_get hp1len
    have hpred :
        (fun item => decide (some item.file_path = s.tabs.get? (p - 1))) f
          = true := by
      rw [decide_eq_true_eq, hq, hfp]
    obtain ⟨n, hfind, hn, hpn⟩ := jsFindIndex_spec_of_mem
      (p := fun item => decide (some item.file_path = s.tabs.get? (p - 1)))
      hf hpred
    rw [hfind, dataPathAt_coe hn]
    have hsome := of_decide_eq_true hpn
    simpa [List.get_eq_getElem] using hsome
  · intro hmm
    have hfm := List.mem_filter.mp hmm
    simp at hfm

/-- C2 witness: with `A.sol` and `B.sol` open and `B.sol` active at
position 1, closing `B.sol` activates the position-0 file `A.sol`. -/
theorem closeTab_active_mid_position_witness :
    dataPathAt exData
        (handleTabClose exData "B.sol" (CEState.mk 1 ["A.sol", "B.sol"])).index
      = (CEState.mk 1 ["A.sol", "B.sol"]).tabs.get? 0 ∧
    "B.sol" ∉ (handleTabClose exData "B.sol"
        (CEState.mk 1 ["A.sol", "B.sol"])).tabs ∧
    (handleTabClose exData "B.sol" (CEState.mk 1 ["A.sol", "B.sol"])).tabs =
      (CEState.mk 1 ["A.sol", "B.sol"]).tabs.filter
        (fun item => item ≠ "B.sol") :=
  closeTab_active_mid_position (p := 1) (by decide) (by decide) (by decide)
    (by decide) (by decide)

/-- C6: in every state reachable from the mount state by valid
operations, the tab list is nonempty and duplicate-free, and every
further operation preserves the relative order of the surviving tabs. -/
theorem reachable_tabs_nonempty_nodup_ordered (data : List File)
    (hdata : data ≠ []) (ops : List Op)
    (hvalid : ∀ op ∈ ops, validOp data op) :
    (run data ops).tabs ≠ [] ∧ (run data ops).tabs.Nodup ∧
    ∀ op : Op,
      orderPreserved (run data ops).tabs
        (applyOp data op (run data ops)).tabs := by
  obtain ⟨hne, hnd, -, -, -⟩ := inv_run data hdata ops hvalid
  exact ⟨hne, hnd, fun op => orderPreserved_applyOp data op _⟩

/-- C6 witness: instantiated at the example collection and the
sequence that opens `B.sol` then closes `A.sol`. -/
theorem reachable_tabs_nonempty_nodup_ordered_witness :
    (run exData exOps).tabs ≠ [] ∧ (run exData exOps).tabs.Nodup := by
  have h := reachable_tabs_nonempty_nodup_ordered exData (by decide) exOps
    (by
      intro op hop
      rcases List.mem_cons.mp hop with rfl | hop
      · show 1 < exData.length
        decide
      · rcases List.mem_singleton.mp hop with rfl
        trivial)
  exact ⟨h.1, h.2.1⟩

/-- C7: a click on an import-reference span whose resolved path
matches no file of the collection changes nothing: `handleClick`
returns the state unchanged (and, being total, raises no error). -/
theorem importClick_no_match_is_noop (data : List File)
    (resolve : String → String → String) (m b il : Bool)
    (innerText : String) (s : CEState)
    (hmiss : ∀ f ∈ data,
      f.file_path ≠ resolve (dataPathAtD data s.index) innerText) :
    handleClick data resolve m b il innerText s = s := by
  unfold handleClick
  split
  · rfl
  · simp only [handleClickInner]
    split
    · have hnone :
          jsFindIndex
            (fun file => file.file_path
              = resolve (dataPathAtD data s.index) innerText) data = -1 :=
        jsFindIndex_eq_neg_one (fun f hf => by simpa using hmiss f hf)
      rw [hnone, if_neg (by omega)]
    · rfl

/-- C7 witness: a meta-click on an import link resolving to a path
outside the collection leaves the mount state untouched. -/
theorem importClick_no_match_is_noop_witness :
    handleClick exData (fun base text => base ++ text) true false true
      "Missing.sol" (initState exData) = initState exData :=
  importClick_no_match_is_noop exData (fun base text => base ++ text)
    true false true "Missing.sol" (initState exData) (by decide)

/-- C8 (counterexample): the source only rules out `undefined` and
`NaN` before scheduling the deferred scroll, so an infinite
`lineNumber` — which the claim says must not scroll — does schedule
one: the scheduled/finite classifications disagree at `+Infinity`. -/
theorem scroll_scheduled_on_infinity :
    (selectFileEffects (some JSNumber.posInf)).scrollScheduled = true ∧
    jsIsFinite JSNumber.posInf = false := by
  decide

/-- C8 (amended): the deferred scroll is scheduled iff `lineNumber` is
defined and not `NaN` (infinite values do schedule a scroll), and
editor focus is requested on every call regardless. -/
theorem selectFileEffects_characterization (lineNumber : Option JSNumber) :
    ((selectFileEffects lineNumber).scrollScheduled = true ↔
      ∃ x, lineNumber = some x ∧ x ≠ JSNumber.nan) ∧
    (selectFileEffects lineNumber).focusRequested = true := by
  refine ⟨?_, rfl⟩
  cases lineNumber with
  | none => simp [selectFileEffects]
  | some x =>
      cases x <;> simp [selectFileEffects, jsObjectIsNaN]

/-- C9: an import click navigates only under the interaction mode:
if the state changed, the meta key was held or the context is mobile;
on mobile the gate is always open and likewise while the modifier is
held — in both cases `handleClick` behaves exactly as its post-gate
body. -/
theorem click_gated_by_meta_or_mobile (data : List File)
    (resolve : String → String → String) (m b il : Bool)
    (innerText : String) (s : CEState) :
    (handleClick data resolve m b il innerText s ≠ s →
      m = true ∨ b = true) ∧
    (b = true →
      handleClick data resolve m b il innerText s
        = handleClickInner data resolve il innerText s) ∧
    (m = true →
      handleClick data resolve m b il innerText s
        = handleClickInner data resolve il innerText s) := by
  refine ⟨?_, ?_, ?_⟩
  · intro hchanged
    cases m with
    | true => exact Or.inl rfl
    | false =>
        cases b with
        | true => exact Or.inr rfl
        | false =>
            exact absurd (by simp [handleClick]) hchanged
  · intro hb
    subst hb
    unfold handleClick
    rw [if_neg (by simp)]
  · intro hm
    subst hm
    unfold handleClick
    rw [if_neg (by simp)]

/-- C9 witness: a meta-click on the `B.sol` import link does change
the state, and indeed the modifier was held; on mobile and under the
modifier the handler runs its post-gate body. -/
theorem click_gated_by_meta_or_mobile_witness :
    (true = true ∨ false = true) ∧
    (handleClick exData (fun _ text => text) false true true "B.sol"
        (initState exData)
      = handleClickInner exData (fun _ text => text) true "B.sol"
          (initState exData)) ∧
    (handleClick exData (fun _ text => text) true false true "B.sol"
        (initState exData)
      = handleClickInner exData (fun _ text => text) true "B.sol"
          (initState exData)) :=
  ⟨(click_gated_by_meta_or_mobile exData (fun _ text => text) true false
      true "B.sol" (initState exData)).1 (by decide),
    (click_gated_by_meta_or_mobile exData (fun _ text => text) false true
      true "B.sol" (initState exData)).2.1 rfl,
    (click_gated_by_meta_or_mobile exData (fun _ text => text) true false
      true "B.sol" (initState exData)).2.2 rfl⟩

/-- C10: after any valid operation sequence from the mount state,
every open tab path is the path of some file of the collection, and
therefore the replacement lookup performed when closing the active tab
always finds a file: `closeTab` never sets the active index to -1. -/
theorem closeTab_replacement_always_found (data : List File)
    (hdata : data ≠ []) (ops : List Op)
    (hvalid : ∀ op ∈ ops, validOp data op) :
    (∀ q ∈ (run data ops).tabs, ∃ f ∈ data, f.file_path = q) ∧
    ∀ path : String,
      (handleTabClose data path (run data ops)).index ≠ -1 := by
  have hinv := inv_run data hdata ops hvalid
  refine ⟨hinv.2.2.1, ?_⟩
  intro path
  obtain ⟨-, -, -, h0, -⟩ := inv_handleTabClose path hinv
  omega

/-- C10 witness: after opening `B.sol`, the open tab `A.sol` belongs
to the collection and closing the active tab keeps a valid index. -/
theorem closeTab_replacement_always_found_witness :
    (∃ f ∈ exData, f.file_path = "A.sol") ∧
    (handleTabClose exData "B.sol"
        (run exData [Op.selectFile 1 none])).index ≠ -1 := by
  have h := closeTab_replacement_always_found exData (by decide)
    [Op.selectFile 1 none]
    (by
      intro op hop
      rcases List.mem_singleton.mp hop with rfl
      show 1 < exData.length
      decide)
  exact ⟨h.1 "A.sol" (by decide), h.2 "B.sol"⟩

end CodeEditor
